import Mathlib

/-!
Shallow embedding of the enTitan locale-config synchronizer and launch
sequencer (src/main.rs).  File contents are modelled as lists of characters;
the Rust string operations the program uses (str::lines, str::trim, find of a
double quote and slicing, format!, slice::join) are translated below.  The
launch worker thread is modelled as the list of messages it sends over its
channel, parameterized by the outcome of the three process spawns.
-/

namespace Entitan

/-- Rust str::split at a newline character: the pieces between newline
separators (an empty input gives one empty piece). -/
def splitNl : List Char → List (List Char)
  | [] => [[]]
  | c :: rest =>
    if c = '\n' then [] :: splitNl rest
    else
      match splitNl rest with
      | [] => [[c]]
      | p :: ps => (c :: p) :: ps

/-- Drop one trailing carriage return, as Rust str::lines does on each piece
that was terminated by a newline. -/
def stripCR (l : List Char) : List Char :=
  if l.getLast? = some '\r' then l.dropLast else l

/-- Rust str::lines: split at newlines; every piece that was terminated by a
newline loses one trailing carriage return; a final newline produces no empty
trailing line; a last piece without a terminator is kept verbatim. -/
def rustLines (s : List Char) : List (List Char) :=
  match (splitNl s).reverse with
  | [] => []
  | last :: revInit =>
    revInit.reverse.map stripCR ++ (if last = [] then [] else [last])

/-- Right half of Rust str::trim (whitespace modelled by Char.isWhitespace). -/
def trimR (l : List Char) : List Char :=
  (l.reverse.dropWhile Char.isWhitespace).reverse

/-- Rust str::trim: whitespace removed from both ends of the line. -/
def trimChars (l : List Char) : List Char :=
  (trimR l).dropWhile Char.isWhitespace

/-- The audio locale key token scanned for by the program. -/
def audioKey : List Char := "SET audioLocale".toList

/-- The text locale key token scanned for by the program. -/
def textKey : List Char := "SET textLocale".toList

/-- First double-quoted substring of a (trimmed) line: the characters between
the first quote and the next one, as the source extracts with find and
slicing; none when fewer than two quotes are present. -/
def firstQuotedVal (s : List Char) : Option (List Char) :=
  match s.dropWhile (fun c => c != '"') with
  | [] => none
  | _ :: rest =>
    let v := rest.takeWhile (fun c => c != '"')
    if v.length = rest.length then none else some v

/-- A line whose trimmed form starts with the audio key (the test used by both
the refresh scan and the update rewrite). -/
def audioMatch (line : List Char) : Bool := audioKey.isPrefixOf (trimChars line)

/-- A line whose trimmed form starts with the text key. -/
def textMatch (line : List Char) : Bool := textKey.isPrefixOf (trimChars line)

/-- A line recognized as one of the two locale key lines. -/
def isKeyLine (line : List Char) : Bool := audioMatch line || textMatch line

/-- One iteration of the refresh scan loop in update_locales: an audio match
overwrites the cached audio value when a quoted value is present, a text match
overwrites the cached text value, any other line is ignored. -/
def scanStep (acc : Option (List Char) × Option (List Char)) (line : List Char) :
    Option (List Char) × Option (List Char) :=
  if audioMatch line then
    match firstQuotedVal (trimChars line) with
    | some v => (some v, acc.2)
    | none => acc
  else if textMatch line then
    match firstQuotedVal (trimChars line) with
    | some v => (acc.1, some v)
    | none => acc
  else acc

/-- The refresh scan over a whole file, starting from cleared cached values. -/
def scanContent (content : List Char) : Option (List Char) × Option (List Char) :=
  (rustLines content).foldl scanStep (none, none)

/-- The part of the on-disk state the two config-store operations consult:
whether the path exists, whether it is a regular file, the size reported by
metadata, and the text contents a read would return. -/
structure FileState where
  fexists : Bool
  isFile : Bool
  size : Nat
  content : String
deriving DecidableEq

/-- The fields of EntitanApp the locale-config synchronizer reads and writes. -/
structure AppState where
  configWtfPath : String
  preferredLocale : String
  audioLocale : Option String
  textLocale : Option String
  lastConfigPath : Option String
deriving DecidableEq

/-- update_locales: re-parse the cached audio and text locales from the file,
unless the configured path is the one last parsed; an empty or missing path
clears the values, a file of size at least 8192 sets the too-large sentinel
without reading content. -/
def update_locales (app : AppState) (fs : FileState) : AppState :=
  if app.lastConfigPath = some app.configWtfPath then app
  else if app.configWtfPath = "" then
    { app with lastConfigPath := none, audioLocale := none, textLocale := none }
  else if !fs.fexists then
    { app with
      lastConfigPath := some app.configWtfPath,
      audioLocale := none, textLocale := none }
  else if 8192 ≤ fs.size then
    { app with
      lastConfigPath := some app.configWtfPath,
      audioLocale := some "(file too large)",
      textLocale := some "(file too large)" }
  else
    { app with
      lastConfigPath := some app.configWtfPath,
      audioLocale := (scanContent fs.content.toList).1.map (fun l => String.mk l),
      textLocale := (scanContent fs.content.toList).2.map (fun l => String.mk l) }

/-- The line written for the audio key: format with the preferred locale. -/
def audioLineFor (pref : List Char) : List Char :=
  "SET audioLocale \"".toList ++ pref ++ ['"']

/-- The line written for the text key. -/
def textLineFor (pref : List Char) : List Char :=
  "SET textLocale \"".toList ++ pref ++ ['"']

/-- The in-place rewrite of one line performed by update_config_file_locales. -/
def replaceLine (pref line : List Char) : List Char :=
  if audioMatch line then audioLineFor pref
  else if textMatch line then textLineFor pref
  else line

/-- The rewritten line list of update_config_file_locales: every matching line
replaced in place, a missing audio key appended first, then a missing text
key. -/
def updatedLines (pref content : List Char) : List (List Char) :=
  (((rustLines content).map (replaceLine pref)) ++
      (if (rustLines content).any audioMatch then [] else [audioLineFor pref])) ++
    (if (rustLines content).any textMatch then [] else [textLineFor pref])

/-- Rust slice::join with a newline separator. -/
def joinNl : List (List Char) → List Char
  | [] => []
  | [x] => x
  | x :: y :: rest => x ++ '\n' :: joinNl (y :: rest)

/-- The full contents written back by update_config_file_locales: the
rewritten lines joined by newlines, plus one trailing newline. -/
def updateContent (pref content : List Char) : List Char :=
  joinNl (updatedLines pref content) ++ ['\n']

/-- update_config_file_locales: empty-path, existence and size guards, then
the rewrite, the write, and a forced refresh of the cached values. -/
def update_config_file_locales (app : AppState) (fs : FileState) :
    Except String (AppState × FileState) :=
  let cfg := app.configWtfPath
  if cfg = "" then .error "Config.wtf path is not set"
  else if !fs.fexists || !fs.isFile then
    .error "Config.wtf path does not exist or is not a file"
  else if 8192 ≤ fs.size then
    .error "Config.wtf file is too large to safely edit"
  else
    let out := String.mk (updateContent app.preferredLocale.toList fs.content.toList)
    let fs1 : FileState :=
      { fexists := true, isFile := true, size := out.utf8ByteSize, content := out }
    let app1 := update_locales { app with lastConfigPath := none } fs1
    .ok (app1, fs1)

/-- Per-frame normalization of the preferred locale: keep only ASCII letters,
truncate to four characters, reset to the literal enUS when nothing remains
(the source binds the filtered string once; it is repeated here verbatim). -/
def normalizePreferred (s : String) : String :=
  if String.mk ((s.toList.filter fun c => c.isAlpha).take 4) = "" then "enUS"
  else String.mk ((s.toList.filter fun c => c.isAlpha).take 4)

/-- Countdown messages with the remaining seconds descending n, n-1, ..., 1. -/
def countdownMsgs (label : String) (n : Nat) : List String :=
  (List.range n).reverse.map (fun i => label ++ toString (i + 1) ++ "s")

/-- The background worker of the run sequence, as the list of messages it
sends over the channel, parameterized by the outcome of the three spawns
(Battle.net, WoW, Battle.net again). -/
def run_worker (spawnA1 spawnB spawnA2 : Except String Unit) : List String :=
  match spawnA1 with
  | .error e => ["Failed to launch Battle.net: " ++ e, "FINISHED"]
  | .ok _ =>
    "Launched Battle.net" ::
      (countdownMsgs "Waiting to launch WoW: " 10 ++
        match spawnB with
        | .error e => ["Failed to launch WoW: " ++ e, "FINISHED"]
        | .ok _ =>
          "Launched WoW" ::
            (countdownMsgs "Waiting before re-launching Battle.net: " 60 ++
              ((match spawnA2 with
                | .error e => ["Failed to launch Battle.net (second): " ++ e]
                | .ok _ => ["Launched Battle.net (second)"]) ++
                ["FINISHED"])))

/-- The Run button handler: the button is enabled only while run_active is
false; on a click the two launch paths are validated and, when valid,
run_active is set and exactly one worker thread is spawned.  Returns the new
run_active flag and whether a worker was spawned. -/
def try_start (runActive validPaths : Bool) : Bool × Bool :=
  if runActive then (runActive, false)
  else if validPaths then (true, true)
  else (runActive, false)

/-- Draining one progress message: FINISHED clears run_active, any other
message only updates the status line. -/
def drain_message (runActive : Bool) (msg : String) : Bool :=
  if msg = "FINISHED" then false else runActive

/-- Draining a batch of progress messages in order. -/
def drain_messages (runActive : Bool) (msgs : List String) : Bool :=
  msgs.foldl drain_message runActive

/-! ### Infrastructure lemmas about the modelled string operations -/

theorem splitNl_ne_nil (s : List Char) : splitNl s ≠ [] := by
  induction s with
  | nil => simp [splitNl]
  | cons c rest ih =>
    simp only [splitNl]
    split
    · simp
    · split <;> simp_all

theorem mem_splitNl_no_newline {s : List Char} :
    ∀ p ∈ splitNl s, '\n' ∉ p := by
  induction s with
  | nil =>
    intro p hp
    simp only [splitNl, List.mem_singleton] at hp
    subst hp
    simp
  | cons c rest ih =>
    intro p hp
    simp only [splitNl] at hp
    by_cases hc : c = '\n'
    · rw [if_pos hc] at hp
      rcases List.mem_cons.mp hp with h | h
      · subst h; simp
      · exact ih p h
    · rw [if_neg hc] at hp
      rcases hmatch : splitNl rest with _ | ⟨q, qs⟩
      · exact absurd hmatch (splitNl_ne_nil rest)
      · rw [hmatch] at hp
        rcases List.mem_cons.mp hp with h | h
        · subst h
          intro hmem
          rcases List.mem_cons.mp hmem with h2 | h2
          · exact hc h2.symm
          · exact ih q (hmatch ▸ List.mem_cons_self q qs) h2
        · exact ih p (hmatch ▸ List.mem_cons_of_mem q h)

theorem splitNl_append_newline {x : List Char} (hx : '\n' ∉ x) (t : List Char) :
    splitNl (x ++ '\n' :: t) = x :: splitNl t := by
  induction x with
  | nil => simp [splitNl]
  | cons c xs ih =>
    have hc : c ≠ '\n' := fun h => hx (h ▸ List.mem_cons_self c xs)
    have hxs : '\n' ∉ xs := fun h => hx (List.mem_cons_of_mem c h)
    rw [List.cons_append]
    simp only [splitNl, if_neg hc, ih hxs]

theorem joinNl_cons_cons (x y : List Char) (r : List (List Char)) :
    joinNl (x :: y :: r) = x ++ '\n' :: joinNl (y :: r) := rfl

theorem splitNl_joinNl {ls : List (List Char)} (h0 : ls ≠ [])
    (hnl : ∀ x ∈ ls, '\n' ∉ x) :
    splitNl (joinNl ls ++ ['\n']) = ls ++ [[]] := by
  induction ls with
  | nil => exact absurd rfl h0
  | cons x ls ih =>
    cases ls with
    | nil =>
      have hx : '\n' ∉ x := hnl x (List.mem_cons_self _ _)
      simpa [joinNl, splitNl] using splitNl_append_newline hx []
    | cons y r =>
      have hx : '\n' ∉ x := hnl x (List.mem_cons_self _ _)
      have hrest : ∀ z ∈ y :: r, '\n' ∉ z := fun z hz => hnl z (List.mem_cons_of_mem _ hz)
      calc splitNl (joinNl (x :: y :: r) ++ ['\n'])
          = splitNl (x ++ '\n' :: (joinNl (y :: r) ++ ['\n'])) := by
            rw [joinNl_cons_cons, List.append_assoc, List.cons_append]
        _ = x :: splitNl (joinNl (y :: r) ++ ['\n']) := splitNl_append_newline hx _
        _ = x :: ((y :: r) ++ [[]]) := by rw [ih (by simp) hrest]
        _ = (x :: y :: r) ++ [[]] := rfl

theorem rustLines_joinNl {ls : List (List Char)} (h0 : ls ≠ [])
    (hnl : ∀ x ∈ ls, '\n' ∉ x) :
    rustLines (joinNl ls ++ ['\n']) = ls.map stripCR := by
  unfold rustLines
  rw [splitNl_joinNl h0 hnl,
    show (ls ++ [[]] : List (List Char)).reverse = [] :: ls.reverse by simp]
  simp

theorem stripCR_subset {l : List Char} : stripCR l ⊆ l := by
  unfold stripCR; split
  · exact (List.dropLast_sublist l).subset
  · exact fun _ h => h

theorem rustLines_no_newline {s : List Char} :
    ∀ x ∈ rustLines s, '\n' ∉ x := by
  intro x hx
  unfold rustLines at hx
  rcases hrev : (splitNl s).reverse with _ | ⟨last, revInit⟩
  · rw [hrev] at hx; simp at hx
  · rw [hrev] at hx
    have hmem : ∀ p, p ∈ (splitNl s).reverse → '\n' ∉ p := fun p hp =>
      mem_splitNl_no_newline p (List.mem_reverse.mp hp)
    rcases List.mem_append.mp hx with h | h
    · rcases List.mem_map.mp h with ⟨p, hp, rfl⟩
      intro hn
      have hpn : '\n' ∈ p := stripCR_subset hn
      exact hmem p (hrev ▸ List.mem_cons_of_mem _ (List.mem_reverse.mp hp)) hpn
    · rcases hlast : (last = [] : Bool)
      · rw [if_neg (by simpa using hlast)] at h
        have := List.mem_singleton.mp h
        subst this
        exact hmem x (hrev ▸ List.mem_cons_self _ _)
      · rw [if_pos (by simpa using hlast)] at h
        simp at h

theorem trimR_append_ws {c : Char} (hc : c.isWhitespace = true) (l : List Char) :
    trimR (l ++ [c]) = trimR l := by
  simp [trimR, List.reverse_append, List.dropWhile_cons, hc]

theorem trimChars_append_ws {c : Char} (hc : c.isWhitespace = true) (l : List Char) :
    trimChars (l ++ [c]) = trimChars l := by
  unfold trimChars
  rw [trimR_append_ws hc]

theorem trimChars_stripCR (l : List Char) : trimChars (stripCR l) = trimChars l := by
  unfold stripCR
  split
  · rename_i h
    have hl : l.dropLast ++ ['\r'] = l := List.dropLast_append_getLast? '\r' (by simp [h])
    conv_rhs => rw [← hl]
    rw [trimChars_append_ws (by decide)]
  · rfl

theorem trimChars_of_ends {c d : Char} (hc : c.isWhitespace = false)
    (hd : d.isWhitespace = false) (m : List Char) :
    trimChars (c :: (m ++ [d])) = c :: (m ++ [d]) := by
  have h1 : trimR (c :: (m ++ [d])) = c :: (m ++ [d]) := by
    simp [trimR, List.reverse_cons, List.reverse_append, List.dropWhile_cons, hd]
  unfold trimChars
  rw [h1]
  simp [List.dropWhile_cons, hc]

theorem isPrefixOf_append_self (l t : List Char) : l.isPrefixOf (l ++ t) = true := by
  induction l with
  | nil => simp
  | cons c cs ih => simp [List.isPrefixOf_cons₂, ih]

/-! ### The two canonical key lines written by the update -/

theorem audioLineFor_shape (pref : List Char) :
    audioLineFor pref = 'S' :: (("ET audioLocale \"".toList ++ pref) ++ ['"']) := by
  show "SET audioLocale \"".toList ++ pref ++ ['"'] = _
  rw [show "SET audioLocale \"".toList = 'S' :: "ET audioLocale \"".toList from rfl]
  simp

theorem textLineFor_shape (pref : List Char) :
    textLineFor pref = 'S' :: (("ET textLocale \"".toList ++ pref) ++ ['"']) := by
  show "SET textLocale \"".toList ++ pref ++ ['"'] = _
  rw [show "SET textLocale \"".toList = 'S' :: "ET textLocale \"".toList from rfl]
  simp

theorem trim_audioLineFor (pref : List Char) :
    trimChars (audioLineFor pref) = audioLineFor pref := by
  rw [audioLineFor_shape]
  exact trimChars_of_ends (by decide) (by decide) _

theorem trim_textLineFor (pref : List Char) :
    trimChars (textLineFor pref) = textLineFor pref := by
  rw [textLineFor_shape]
  exact trimChars_of_ends (by decide) (by decide) _

theorem audioMatch_audioLineFor (pref : List Char) :
    audioMatch (audioLineFor pref) = true := by
  unfold audioMatch
  rw [trim_audioLineFor,
    show audioLineFor pref = audioKey ++ ([' ', '"'] ++ (pref ++ ['"'])) from by
      show "SET audioLocale \"".toList ++ pref ++ ['"'] = _
      rw [show "SET audioLocale \"".toList = audioKey ++ [' ', '"'] from rfl]
      simp]
  exact isPrefixOf_append_self _ _

theorem textMatch_textLineFor (pref : List Char) :
    textMatch (textLineFor pref) = true := by
  unfold textMatch
  rw [trim_textLineFor,
    show textLineFor pref = textKey ++ ([' ', '"'] ++ (pref ++ ['"'])) from by
      show "SET textLocale \"".toList ++ pref ++ ['"'] = _
      rw [show "SET textLocale \"".toList = textKey ++ [' ', '"'] from rfl]
      simp]
  exact isPrefixOf_append_self _ _

theorem audioMatch_textLineFor (pref : List Char) :
    audioMatch (textLineFor pref) = false := by
  unfold audioMatch
  rw [trim_textLineFor]
  show audioKey.isPrefixOf ("SET textLocale \"".toList ++ pref ++ ['"']) = false
  rfl

theorem textMatch_audioLineFor (pref : List Char) :
    textMatch (audioLineFor pref) = false := by
  unfold textMatch
  rw [trim_audioLineFor]
  show textKey.isPrefixOf ("SET audioLocale \"".toList ++ pref ++ ['"']) = false
  rfl

theorem dropWhile_quote_append {a : List Char} (ha : '"' ∉ a) (r : List Char) :
    (a ++ r).dropWhile (fun c => c != '"') = r.dropWhile (fun c => c != '"') := by
  induction a with
  | nil => rfl
  | cons c cs ih =>
    have hc : c ≠ '"' := fun h => ha (h ▸ List.mem_cons_self _ _)
    have hcs : '"' ∉ cs := fun h => ha (List.mem_cons_of_mem _ h)
    simp only [List.cons_append, List.dropWhile_cons]
    rw [if_pos (by simpa using hc)]
    exact ih hcs

theorem takeWhile_quote_append {v : List Char} (hv : '"' ∉ v) (r : List Char) :
    (v ++ '"' :: r).takeWhile (fun c => c != '"') = v := by
  induction v with
  | nil => simp [List.takeWhile_cons]
  | cons c cs ih =>
    have hc : c ≠ '"' := fun h => hv (h ▸ List.mem_cons_self _ _)
    have hcs : '"' ∉ cs := fun h => hv (List.mem_cons_of_mem _ h)
    simp only [List.cons_append, List.takeWhile_cons]
    rw [if_pos (by simpa using hc), ih hcs]

theorem firstQuotedVal_shape {a v : List Char} (ha : '"' ∉ a) (hv : '"' ∉ v)
    (r : List Char) :
    firstQuotedVal (a ++ '"' :: (v ++ '"' :: r)) = some v := by
  unfold firstQuotedVal
  rw [dropWhile_quote_append ha,
    show (('"' :: (v ++ '"' :: r)).dropWhile (fun c => c != '"')) = '"' :: (v ++ '"' :: r)
      from by simp [List.dropWhile_cons]]
  simp only
  rw [takeWhile_quote_append hv]
  have hlen : v.length ≠ (v ++ '"' :: r).length := by
    simp [List.length_append]
  simp [hlen]

theorem fq_audioLineFor {pref : List Char} (hq : '"' ∉ pref) :
    firstQuotedVal (trimChars (audioLineFor pref)) = some pref := by
  rw [trim_audioLineFor,
    show audioLineFor pref = "SET audioLocale ".toList ++ '"' :: (pref ++ '"' :: []) from by
      show "SET audioLocale \"".toList ++ pref ++ ['"'] = _
      rw [show "SET audioLocale \"".toList = "SET audioLocale ".toList ++ ['"'] from rfl]
      simp]
  exact firstQuotedVal_shape (by decide) hq []

theorem fq_textLineFor {pref : List Char} (hq : '"' ∉ pref) :
    firstQuotedVal (trimChars (textLineFor pref)) = some pref := by
  rw [trim_textLineFor,
    show textLineFor pref = "SET textLocale ".toList ++ '"' :: (pref ++ '"' :: []) from by
      show "SET textLocale \"".toList ++ pref ++ ['"'] = _
      rw [show "SET textLocale \"".toList = "SET textLocale ".toList ++ ['"'] from rfl]
      simp]
  exact firstQuotedVal_shape (by decide) hq []

theorem audioMatch_of_textMatch {l : List Char} (h : textMatch l = true) :
    audioMatch l = false := by
  unfold textMatch at h
  unfold audioMatch
  rcases List.isPrefixOf_iff_prefix.mp h with ⟨t, ht⟩
  by_contra hcon
  have hcon' : audioKey.isPrefixOf (trimChars l) = true := by simpa using hcon
  rcases List.isPrefixOf_iff_prefix.mp hcon' with ⟨u, hu⟩
  rw [← ht] at hu
  rw [show audioKey = 'S' :: 'E' :: 'T' :: ' ' :: 'a' :: "udioLocale".toList from rfl,
      show textKey = 'S' :: 'E' :: 'T' :: ' ' :: 't' :: "extLocale".toList from rfl] at hu
  simp only [List.cons_append] at hu
  injection hu with h1 hu; injection hu with h2 hu; injection hu with h3 hu
  injection hu with h4 hu; injection hu with h5 hu
  exact absurd h5 (by decide)

/-! ### Last-write-wins characterization of the refresh scan -/

/-- The value an audio-matching line contributes to the scan, if any. -/
def exA (line : List Char) : Option (List Char) :=
  if audioMatch line then firstQuotedVal (trimChars line) else none

/-- The value a text-matching line contributes to the scan, if any. -/
def exT (line : List Char) : Option (List Char) :=
  if audioMatch line then none
  else if textMatch line then firstQuotedVal (trimChars line) else none

/-- One component of the scan step: a contributed value overwrites, otherwise
the accumulator is kept. -/
def lastStep (ex : List Char → Option (List Char)) (a : Option (List Char))
    (x : List Char) : Option (List Char) :=
  match ex x with
  | some v => some v
  | none => a

theorem scanStep_eq (acc : Option (List Char) × Option (List Char)) (line : List Char) :
    scanStep acc line = (lastStep exA acc.1 line, lastStep exT acc.2 line) := by
  unfold scanStep lastStep exA exT
  by_cases h1 : audioMatch line
  · rw [if_pos h1, if_pos h1, if_pos h1]
    cases firstQuotedVal (trimChars line) <;> simp
  · rw [if_neg h1, if_neg h1, if_neg h1]
    by_cases h2 : textMatch line
    · rw [if_pos h2, if_pos h2]
      cases firstQuotedVal (trimChars line) <;> simp
    · rw [if_neg h2, if_neg h2]

theorem foldl_scanStep (l : List (List Char)) (a t : Option (List Char)) :
    l.foldl scanStep (a, t) = (l.foldl (lastStep exA) a, l.foldl (lastStep exT) t) := by
  induction l generalizing a t with
  | nil => rfl
  | cons x xs ih =>
    simp only [List.foldl_cons, scanStep_eq]
    exact ih _ _

theorem foldl_lastStep_const (ex : List Char → Option (List Char)) (v : List Char)
    (l : List (List Char)) :
    ∀ a, (∀ x ∈ l, ex x = none ∨ ex x = some v) →
      ((∃ x ∈ l, ex x = some v) ∨ a = some v) →
      l.foldl (lastStep ex) a = some v := by
  induction l with
  | nil =>
    intro a _ h
    rcases h with ⟨x, hx, _⟩ | h
    · exact absurd hx (List.not_mem_nil x)
    · simpa using h
  | cons x xs ih =>
    intro a hall hex
    simp only [List.foldl_cons]
    rcases hall x (List.mem_cons_self _ _) with hx | hx
    · rw [show lastStep ex a x = a from by simp [lastStep, hx]]
      apply ih a (fun y hy => hall y (List.mem_cons_of_mem _ hy))
      rcases hex with ⟨y, hy, hvy⟩ | ha
      · rcases List.mem_cons.mp hy with rfl | hy'
        · rw [hvy] at hx; cases hx
        · exact Or.inl ⟨y, hy', hvy⟩
      · exact Or.inr ha
    · rw [show lastStep ex a x = some v from by simp [lastStep, hx]]
      exact ih (some v) (fun y hy => hall y (List.mem_cons_of_mem _ hy)) (Or.inr rfl)

theorem foldl_lastStep_eq (ex : List Char → Option (List Char)) (l : List (List Char)) :
    ∀ a, l.foldl (lastStep ex) a =
      match (l.reverse.filterMap ex).head? with
      | some w => some w
      | none => a := by
  induction l with
  | nil => intro a; rfl
  | cons x xs ih =>
    intro a
    simp only [List.foldl_cons, ih]
    rw [List.reverse_cons, List.filterMap_append]
    rcases h : xs.reverse.filterMap ex with _ | ⟨w, ws⟩
    · simp only [List.nil_append]
      rcases hx : ex x with _ | v <;> simp [List.filterMap_cons, hx, lastStep]
    · simp

theorem head_filterMap_of_filter (p : List Char → Bool)
    (ex : List Char → Option (List Char))
    (hnone : ∀ y, p y = false → ex y = none) :
    ∀ (r : List (List Char)) (x v : List Char),
      (r.filter p).head? = some x → ex x = some v →
      (r.filterMap ex).head? = some v := by
  intro r
  induction r with
  | nil => intro x v h _; simp at h
  | cons y t ih =>
    intro x v hh hx
    by_cases hy : p y = true
    · rw [List.filter_cons_of_pos hy] at hh
      have hxy : y = x := by simpa using hh
      subst hxy
      simp [List.filterMap_cons, hx]
    · have hy' : p y = false := by simpa using hy
      rw [List.filter_cons_of_neg (by simp [hy'])] at hh
      simp only [List.filterMap_cons, hnone y hy']
      exact ih x v hh hx

/-! ### Structure of the rewritten line list -/

theorem mem_updatedLines {pref content x : List Char}
    (hx : x ∈ updatedLines pref content) :
    x = audioLineFor pref ∨ x = textLineFor pref ∨
      (x ∈ rustLines content ∧ audioMatch x = false ∧ textMatch x = false) := by
  unfold updatedLines at hx
  rcases List.mem_append.mp hx with h | h
  · rcases List.mem_append.mp h with h2 | h2
    · rcases List.mem_map.mp h2 with ⟨y, hy, rfl⟩
      unfold replaceLine
      by_cases ha : audioMatch y = true
      · rw [if_pos ha]; exact Or.inl rfl
      · by_cases ht : textMatch y = true
        · rw [if_neg ha, if_pos ht]; exact Or.inr (Or.inl rfl)
        · rw [if_neg ha, if_neg ht]
          exact Or.inr (Or.inr ⟨hy, by simpa using ha, by simpa using ht⟩)
    · split at h2
      · simp at h2
      · exact Or.inl (by simpa using h2)
  · split at h
    · simp at h
    · exact Or.inr (Or.inl (by simpa using h))

theorem audioLineFor_mem_updatedLines (pref content : List Char) :
    audioLineFor pref ∈ updatedLines pref content := by
  unfold updatedLines
  by_cases hA : (rustLines content).any audioMatch = true
  · obtain ⟨y, hy, hay⟩ := List.any_eq_true.mp hA
    apply List.mem_append_left
    apply List.mem_append_left
    exact List.mem_map.mpr ⟨y, hy, by simp [replaceLine, hay]⟩
  · apply List.mem_append_left
    apply List.mem_append_right
    simp [hA]

theorem textLineFor_mem_updatedLines (pref content : List Char) :
    textLineFor pref ∈ updatedLines pref content := by
  unfold updatedLines
  by_cases hT : (rustLines content).any textMatch = true
  · obtain ⟨y, hy, hty⟩ := List.any_eq_true.mp hT
    apply List.mem_append_left
    apply List.mem_append_left
    refine List.mem_map.mpr ⟨y, hy, ?_⟩
    simp [replaceLine, hty, audioMatch_of_textMatch hty]
  · apply List.mem_append_right
    simp [hT]

theorem updatedLines_ne_nil (pref content : List Char) :
    updatedLines pref content ≠ [] := by
  intro h
  have hmem := audioLineFor_mem_updatedLines pref content
  rw [h] at hmem
  exact List.not_mem_nil _ hmem

theorem updatedLines_no_newline {pref : List Char} (hp : '\n' ∉ pref)
    (content : List Char) :
    ∀ x ∈ updatedLines pref content, '\n' ∉ x := by
  have haudio : '\n' ∉ audioLineFor pref := by
    intro hn
    rcases List.mem_append.mp hn with h | h
    · rcases List.mem_append.mp h with h2 | h2
      · revert h2; decide
      · exact hp h2
    · simp at h
  have htext : '\n' ∉ textLineFor pref := by
    intro hn
    rcases List.mem_append.mp hn with h | h
    · rcases List.mem_append.mp h with h2 | h2
      · revert h2; decide
      · exact hp h2
    · simp at h
  intro x hx
  rcases mem_updatedLines hx with rfl | rfl | ⟨hmem, _, _⟩
  · exact haudio
  · exact htext
  · exact rustLines_no_newline x hmem

/-! ### The scan of freshly rewritten contents yields the preferred locale -/

theorem scanStep_stripCR (acc : Option (List Char) × Option (List Char))
    (x : List Char) : scanStep acc (stripCR x) = scanStep acc x := by
  unfold scanStep audioMatch textMatch
  rw [trimChars_stripCR]

theorem scanContent_updateContent {pref : List Char} (hn : '\n' ∉ pref)
    (hq : '"' ∉ pref) (content : List Char) :
    scanContent (updateContent pref content) = (some pref, some pref) := by
  unfold scanContent updateContent
  rw [rustLines_joinNl (updatedLines_ne_nil pref content)
      (updatedLines_no_newline hn content)]
  rw [List.foldl_map]
  rw [show (fun (acc : Option (List Char) × Option (List Char)) x =>
        scanStep acc (stripCR x)) = scanStep from funext₂ scanStep_stripCR]
  rw [foldl_scanStep]
  have hallA : ∀ x ∈ updatedLines pref content, exA x = none ∨ exA x = some pref := by
    intro x hx
    rcases mem_updatedLines hx with rfl | rfl | ⟨_, ha, _⟩
    · exact Or.inr (by simp [exA, audioMatch_audioLineFor, fq_audioLineFor hq])
    · exact Or.inl (by simp [exA, audioMatch_textLineFor])
    · exact Or.inl (by simp [exA, ha])
  have hallT : ∀ x ∈ updatedLines pref content, exT x = none ∨ exT x = some pref := by
    intro x hx
    rcases mem_updatedLines hx with rfl | rfl | ⟨_, ha, ht⟩
    · exact Or.inl (by simp [exT, audioMatch_audioLineFor])
    · exact Or.inr (by
        simp [exT, audioMatch_textLineFor, textMatch_textLineFor, fq_textLineFor hq])
    · exact Or.inl (by simp [exT, ha, ht])
  rw [foldl_lastStep_const exA pref _ none hallA
      (Or.inl ⟨audioLineFor pref, audioLineFor_mem_updatedLines pref content,
        by simp [exA, audioMatch_audioLineFor, fq_audioLineFor hq]⟩),
    foldl_lastStep_const exT pref _ none hallT
      (Or.inl ⟨textLineFor pref, textLineFor_mem_updatedLines pref content,
        by simp [exT, audioMatch_textLineFor, textMatch_textLineFor, fq_textLineFor hq]⟩)]

/-! ### Reduction of the guarded update operation -/

theorem toList_mk (l : List Char) : (String.mk l).toList = l := rfl

theorem mk_toList (s : String) : String.mk s.toList = s := rfl

theorem toList_append (a b : String) : (a ++ b).toList = a.toList ++ b.toList := by
  cases a
  cases b
  rfl

theorem update_ok (app : AppState) (fs : FileState)
    (h1 : app.configWtfPath ≠ "") (h2 : fs.fexists = true) (h3 : fs.isFile = true)
    (h4 : fs.size < 8192) :
    update_config_file_locales app fs =
      .ok (update_locales { app with lastConfigPath := none }
            ⟨true, true,
              (String.mk (updateContent app.preferredLocale.toList fs.content.toList)).utf8ByteSize,
              String.mk (updateContent app.preferredLocale.toList fs.content.toList)⟩,
          ⟨true, true,
            (String.mk (updateContent app.preferredLocale.toList fs.content.toList)).utf8ByteSize,
            String.mk (updateContent app.preferredLocale.toList fs.content.toList)⟩) := by
  unfold update_config_file_locales
  rw [if_neg h1]
  rw [if_neg (by simp [h2, h3])]
  rw [if_neg (by omega)]

theorem update_locales_small (app : AppState) (fs : FileState)
    (h0 : app.lastConfigPath ≠ some app.configWtfPath)
    (h1 : app.configWtfPath ≠ "") (h2 : fs.fexists = true) (h4 : fs.size < 8192) :
    update_locales app fs = { app with
      lastConfigPath := some app.configWtfPath,
      audioLocale := (scanContent fs.content.toList).1.map (fun l => String.mk l),
      textLocale := (scanContent fs.content.toList).2.map (fun l => String.mk l) } := by
  unfold update_locales
  rw [if_neg h0, if_neg h1, if_neg (by simp [h2]), if_neg (by omega)]

theorem update_locales_toolarge (app : AppState) (fs : FileState)
    (h0 : app.lastConfigPath ≠ some app.configWtfPath)
    (h1 : app.configWtfPath ≠ "") (h2 : fs.fexists = true) (h4 : 8192 ≤ fs.size) :
    update_locales app fs = { app with
      lastConfigPath := some app.configWtfPath,
      audioLocale := some "(file too large)",
      textLocale := some "(file too large)" } := by
  unfold update_locales
  rw [if_neg h0, if_neg h1, if_neg (by simp [h2]), if_pos h4]

/-! ### Claims C1 to C4 -/

/-- Claim C1: for every config file whose size stays under 8192 bytes before
and after, Update on a non-empty path to an existing regular file with a
locale (quote-free and newline-free, as every locale value is), followed by
the forced Refresh, yields cached audioLocale and textLocale equal to that
locale, regardless of the file's prior content. -/
theorem C1_update_roundtrip (app : AppState) (fs : FileState)
    (h1 : app.configWtfPath ≠ "") (h2 : fs.fexists = true) (h3 : fs.isFile = true)
    (h4 : fs.size < 8192)
    (h5 : (String.mk (updateContent app.preferredLocale.toList
      fs.content.toList)).utf8ByteSize < 8192)
    (hq : '"' ∉ app.preferredLocale.toList) (hn : '\n' ∉ app.preferredLocale.toList) :
    ∃ app1 fs1, update_config_file_locales app fs = .ok (app1, fs1) ∧
      app1.audioLocale = some app.preferredLocale ∧
      app1.textLocale = some app.preferredLocale := by
  rw [update_ok app fs h1 h2 h3 h4]
  rw [update_locales_small { app with lastConfigPath := none }
    ⟨true, true,
      (String.mk (updateContent app.preferredLocale.toList
        fs.content.toList)).utf8ByteSize,
      String.mk (updateContent app.preferredLocale.toList fs.content.toList)⟩
    (by simp) h1 rfl h5]
  refine ⟨_, _, rfl, ?_, ?_⟩
  · show ((scanContent (String.mk (updateContent app.preferredLocale.toList
        fs.content.toList)).toList).1.map (fun l => String.mk l)) =
      some app.preferredLocale
    rw [toList_mk, scanContent_updateContent hn hq]
    exact congrArg some (mk_toList _)
  · show ((scanContent (String.mk (updateContent app.preferredLocale.toList
        fs.content.toList)).toList).2.map (fun l => String.mk l)) =
      some app.preferredLocale
    rw [toList_mk, scanContent_updateContent hn hq]
    exact congrArg some (mk_toList _)

theorem C1_witness :
    ∃ app1 fs1,
      update_config_file_locales ⟨"Config.wtf", "frFR", none, none, none⟩
          ⟨true, true, 23, "SET audioLocale \"enUS\""⟩ = .ok (app1, fs1) ∧
      app1.audioLocale = some "frFR" ∧ app1.textLocale = some "frFR" :=
  C1_update_roundtrip ⟨"Config.wtf", "frFR", none, none, none⟩
    ⟨true, true, 23, "SET audioLocale \"enUS\""⟩
    (by decide) rfl rfl (by decide) (by decide) (by decide) (by decide)

/-- Claim C2: a file of size at least 8192 bytes is never read or written:
the refresh sets both cached values to the too-large sentinel and its result
does not depend on the file's contents, and the update fails with the
too-large error, again independently of the contents. -/
theorem C2_size_guard (app : AppState) (fs : FileState)
    (h1 : app.configWtfPath ≠ "") (h0 : app.lastConfigPath ≠ some app.configWtfPath)
    (h2 : fs.fexists = true) (h3 : fs.isFile = true) (h4 : 8192 ≤ fs.size) :
    (update_locales app fs).audioLocale = some "(file too large)" ∧
    (update_locales app fs).textLocale = some "(file too large)" ∧
    (∀ c : String, update_locales app { fs with content := c } = update_locales app fs) ∧
    update_config_file_locales app fs =
      .error "Config.wtf file is too large to safely edit" ∧
    (∀ c : String, update_config_file_locales app { fs with content := c } =
      update_config_file_locales app fs) := by
  refine ⟨?_, ?_, ?_, ?_, ?_⟩
  · rw [update_locales_toolarge app fs h0 h1 h2 h4]
  · rw [update_locales_toolarge app fs h0 h1 h2 h4]
  · intro c
    rw [update_locales_toolarge app ⟨fs.fexists, fs.isFile, fs.size, c⟩ h0 h1 h2 h4,
      update_locales_toolarge app fs h0 h1 h2 h4]
  · unfold update_config_file_locales
    rw [if_neg h1, if_neg (by simp [h2, h3]), if_pos h4]
  · intro c
    unfold update_config_file_locales
    rw [if_neg h1, if_neg (by simp [h2, h3]), if_pos h4,
      if_neg h1, if_neg (by simp [h2, h3]), if_pos h4]

theorem C2_witness :
    (update_locales ⟨"Config.wtf", "frFR", none, none, none⟩
      ⟨true, true, 8192, "x"⟩).audioLocale = some "(file too large)" ∧
    (update_locales ⟨"Config.wtf", "frFR", none, none, none⟩
      ⟨true, true, 8192, "x"⟩).textLocale = some "(file too large)" ∧
    update_config_file_locales ⟨"Config.wtf", "frFR", none, none, none⟩
      ⟨true, true, 8192, "x"⟩ = .error "Config.wtf file is too large to safely edit" :=
  ⟨(C2_size_guard _ _ (by decide) (by decide) rfl rfl (by decide)).1,
   (C2_size_guard _ _ (by decide) (by decide) rfl rfl (by decide)).2.1,
   (C2_size_guard _ _ (by decide) (by decide) rfl rfl (by decide)).2.2.2.1⟩

/-- Claim C3: the update leaves every non-key line unchanged at its original
position, rewrites key lines in place to the canonical key line, appends a
key line at the end only when that key was absent, and the written contents
are exactly those lines joined by newlines. -/
theorem C3_update_frame (content pref : List Char) :
    (∀ (i : Nat) (x : List Char), (rustLines content)[i]? = some x → isKeyLine x = false →
        (updatedLines pref content)[i]? = some x) ∧
    (∀ (i : Nat) (x : List Char), (rustLines content)[i]? = some x → audioMatch x = true →
        (updatedLines pref content)[i]? = some (audioLineFor pref)) ∧
    (∀ (i : Nat) (x : List Char), (rustLines content)[i]? = some x → audioMatch x = false →
        textMatch x = true →
        (updatedLines pref content)[i]? = some (textLineFor pref)) ∧
    ((updatedLines pref content).drop (rustLines content).length =
      (if (rustLines content).any audioMatch then [] else [audioLineFor pref]) ++
        (if (rustLines content).any textMatch then [] else [textLineFor pref])) ∧
    updateContent pref content = joinNl (updatedLines pref content) ++ ['\n'] := by
  have hidx : ∀ (i : Nat) (x : List Char), (rustLines content)[i]? = some x →
      (updatedLines pref content)[i]? = some (replaceLine pref x) := by
    intro i x hx
    have hi : i < (rustLines content).length :=
      (List.getElem?_eq_some_iff.mp hx).1
    unfold updatedLines
    rw [List.getElem?_append_left
        (by simp only [List.length_append, List.length_map]; omega),
      List.getElem?_append_left (by simp only [List.length_map]; exact hi),
      List.getElem?_map, hx]
    rfl
  refine ⟨?_, ?_, ?_, ?_, rfl⟩
  · intro i x hx hk
    have h2 : audioMatch x = false ∧ textMatch x = false := by
      simpa [isKeyLine, Bool.or_eq_false_iff] using hk
    rw [hidx i x hx]
    simp [replaceLine, h2.1, h2.2]
  · intro i x hx ha
    rw [hidx i x hx]
    simp [replaceLine, ha]
  · intro i x hx ha ht
    rw [hidx i x hx]
    simp [replaceLine, ha, ht]
  · unfold updatedLines
    rw [List.append_assoc]
    exact List.drop_left' (List.length_map _ _)

theorem C3_witness :
    (updatedLines "frFR".toList "foo\nSET audioLocale \"enUS\"".toList)[0]? =
      some "foo".toList ∧
    (updatedLines "frFR".toList "foo\nSET audioLocale \"enUS\"".toList)[1]? =
      some (audioLineFor "frFR".toList) :=
  ⟨(C3_update_frame "foo\nSET audioLocale \"enUS\"".toList "frFR".toList).1
      0 "foo".toList (by decide) (by decide),
   (C3_update_frame "foo\nSET audioLocale \"enUS\"".toList "frFR".toList).2.1
      1 "SET audioLocale \"enUS\"".toList (by decide) (by decide)⟩

/-- The normalization fixes every string of at most four ASCII letters. -/
theorem normalize_fixed (t : String) (ha : t.toList.all Char.isAlpha = true)
    (hl : t.toList.length ≤ 4) (hne : t ≠ "") : normalizePreferred t = t := by
  unfold normalizePreferred
  have hfil : t.toList.filter (fun c => c.isAlpha) = t.toList :=
    List.filter_eq_self.mpr (List.all_eq_true.mp ha)
  rw [hfil, List.take_of_length_le hl, mk_toList, if_neg hne]

theorem normalize_spec (s : String) :
    (normalizePreferred s).toList.all Char.isAlpha = true ∧
    (normalizePreferred s).toList.length ≤ 4 ∧
    normalizePreferred s ≠ "" := by
  unfold normalizePreferred
  split
  · exact ⟨by decide, by decide, by decide⟩
  · rename_i h
    refine ⟨?_, ?_, h⟩
    · rw [toList_mk]
      apply List.all_eq_true.mpr
      intro c hc
      exact (List.mem_filter.mp (List.mem_of_mem_take hc)).2
    · rw [toList_mk]
      exact List.length_take_le _ _

/-- Claim C4: normalization of the preferred locale is idempotent, and its
result always consists of ASCII letters only, has length at most four, and is
non-empty. -/
theorem C4_normalize (s : String) :
    normalizePreferred (normalizePreferred s) = normalizePreferred s ∧
    (normalizePreferred s).toList.all Char.isAlpha = true ∧
    (normalizePreferred s).length ≤ 4 ∧
    normalizePreferred s ≠ "" := by
  obtain ⟨ha, hl, hne⟩ := normalize_spec s
  exact ⟨normalize_fixed _ ha hl hne, ha, hl, hne⟩

/-! ### Claims C5 to C7: the launch worker's message sequence -/

theorem countdown_head {lab : String} {n : Nat} {m : String}
    (hm : m ∈ countdownMsgs lab n) : ∃ t, m.toList = lab.toList ++ t := by
  unfold countdownMsgs at hm
  rcases List.mem_map.mp hm with ⟨i, _, rfl⟩
  refine ⟨(toString (i + 1)).toList ++ "s".toList, ?_⟩
  rw [toList_append, toList_append, List.append_assoc]

theorem not_mem_countdown_of_head_F {m : String} (hm : ∃ u, m.toList = 'F' :: u)
    {lab : String} {w : List Char} (hlab : lab.toList = 'W' :: w) (n : Nat) :
    m ∉ countdownMsgs lab n := by
  intro hmem
  obtain ⟨t, ht⟩ := countdown_head hmem
  obtain ⟨u, hu⟩ := hm
  rw [hu, hlab, List.cons_append] at ht
  injection ht with h1 _
  exact absurd h1 (by decide)

/-- Claim C5: when the spawn of Battle.net fails, the worker emits exactly two
messages, the failure message naming the cause followed by the FINISHED
sentinel, and no countdown message is ever emitted. -/
theorem C5_spawnA_failure (e : String) (sb sa2 : Except String Unit) :
    run_worker (.error e) sb sa2 =
      ["Failed to launch Battle.net: " ++ e, "FINISHED"] ∧
    (run_worker (.error e) sb sa2).length = 2 ∧
    ∀ m ∈ run_worker (.error e) sb sa2,
      m ∉ countdownMsgs "Waiting to launch WoW: " 10 ∧
      m ∉ countdownMsgs "Waiting before re-launching Battle.net: " 60 := by
  refine ⟨rfl, rfl, ?_⟩
  intro m hm
  have hF : ∃ u, m.toList = 'F' :: u := by
    rcases List.mem_cons.mp hm with rfl | hm2
    · refine ⟨"ailed to launch Battle.net: ".toList ++ e.toList, ?_⟩
      rw [toList_append]
      rfl
    · rcases List.mem_cons.mp hm2 with rfl | hm3
      · exact ⟨"INISHED".toList, rfl⟩
      · simp at hm3
  exact ⟨not_mem_countdown_of_head_F hF rfl 10,
    not_mem_countdown_of_head_F hF rfl 60⟩

theorem C5_witness :
    run_worker (.error "boom") (.ok ()) (.ok ()) =
      ["Failed to launch Battle.net: " ++ "boom", "FINISHED"] ∧
    "FINISHED" ∉ countdownMsgs "Waiting to launch WoW: " 10 :=
  ⟨(C5_spawnA_failure "boom" (.ok ()) (.ok ())).1,
   ((C5_spawnA_failure "boom" (.ok ()) (.ok ())).2.2 "FINISHED" (by decide)).1⟩

/-- Claim C6: a fully successful run emits exactly 74 messages in order:
launch-A success, ten countdown messages descending 10 to 1, launch-B
success, sixty countdown messages descending 60 to 1, a second launch-A
success, then FINISHED. -/
theorem C6_full_run :
    run_worker (.ok ()) (.ok ()) (.ok ()) =
      "Launched Battle.net" ::
        (countdownMsgs "Waiting to launch WoW: " 10 ++
          ("Launched WoW" ::
            (countdownMsgs "Waiting before re-launching Battle.net: " 60 ++
              ["Launched Battle.net (second)", "FINISHED"]))) ∧
    (run_worker (.ok ()) (.ok ()) (.ok ())).length = 74 ∧
    (∀ i : Nat, i < 10 → (countdownMsgs "Waiting to launch WoW: " 10)[i]? =
      some ("Waiting to launch WoW: " ++ toString (10 - i) ++ "s")) ∧
    (∀ i : Nat, i < 60 →
      (countdownMsgs "Waiting before re-launching Battle.net: " 60)[i]? =
        some ("Waiting before re-launching Battle.net: " ++ toString (60 - i) ++ "s")) := by
  exact ⟨rfl, rfl, by decide, by decide⟩

theorem C6_witness :
    (countdownMsgs "Waiting to launch WoW: " 10)[0]? =
      some ("Waiting to launch WoW: " ++ toString 10 ++ "s") :=
  C6_full_run.2.2.1 0 (by decide)

/-- Claim C7: once the sequence reaches the second launch of Battle.net,
FINISHED is the final message whether that launch succeeds or fails, and a
failure there still leaves its failure message in the stream. -/
theorem C7_finished_always_last :
    (∀ e : String,
      (run_worker (.ok ()) (.ok ()) (.error e)).getLast? = some "FINISHED" ∧
      ("Failed to launch Battle.net (second): " ++ e) ∈
        run_worker (.ok ()) (.ok ()) (.error e)) ∧
    (run_worker (.ok ()) (.ok ()) (.ok ())).getLast? = some "FINISHED" := by
  refine ⟨fun e => ⟨rfl, ?_⟩, rfl⟩
  show _ ∈ "Launched Battle.net" ::
    (countdownMsgs "Waiting to launch WoW: " 10 ++
      ("Launched WoW" ::
        (countdownMsgs "Waiting before re-launching Battle.net: " 60 ++
          (["Failed to launch Battle.net (second): " ++ e] ++ ["FINISHED"]))))
  apply List.mem_cons_of_mem
  apply List.mem_append_right
  apply List.mem_cons_of_mem
  apply List.mem_append_right
  apply List.mem_append_left
  exact List.mem_singleton.mpr rfl

theorem C7_witness :
    (run_worker (.ok ()) (.ok ()) (.error "boom")).getLast? = some "FINISHED" :=
  (C7_finished_always_last.1 "boom").1

/-! ### Claim C8: duplicate keys, the last matching line wins -/

/-- Claim C8: when the file's line list contains two or more lines matching
the same locale key, the refresh caches the value extracted from the last
matching line, for the audio key and the text key alike. -/
theorem C8_last_match_wins (app : AppState) (fs : FileState)
    (h1 : app.configWtfPath ≠ "") (h0 : app.lastConfigPath ≠ some app.configWtfPath)
    (h2 : fs.fexists = true) (h4 : fs.size < 8192)
    (la lt v w : List Char)
    (hA2 : 2 ≤ ((rustLines fs.content.toList).filter audioMatch).length)
    (hAl : ((rustLines fs.content.toList).filter audioMatch).getLast? = some la)
    (hAv : firstQuotedVal (trimChars la) = some v)
    (hT2 : 2 ≤ ((rustLines fs.content.toList).filter textMatch).length)
    (hTl : ((rustLines fs.content.toList).filter textMatch).getLast? = some lt)
    (hTw : firstQuotedVal (trimChars lt) = some w) :
    (update_locales app fs).audioLocale = some (String.mk v) ∧
    (update_locales app fs).textLocale = some (String.mk w) := by
  have hAmatch : audioMatch la = true :=
    (List.mem_filter.mp (List.mem_of_getLast?_eq_some hAl)).2
  have hTmatch : textMatch lt = true :=
    (List.mem_filter.mp (List.mem_of_getLast?_eq_some hTl)).2
  have hnA : ∀ y, audioMatch y = false → exA y = none := by
    intro y hy
    simp [exA, hy]
  have hnT : ∀ y, textMatch y = false → exT y = none := by
    intro y hy
    unfold exT
    rw [hy]
    split <;> rfl
  have hAl' : ((rustLines fs.content.toList).reverse.filter audioMatch).head? =
      some la := by
    rw [List.filter_reverse, List.head?_reverse]
    exact hAl
  have hTl' : ((rustLines fs.content.toList).reverse.filter textMatch).head? =
      some lt := by
    rw [List.filter_reverse, List.head?_reverse]
    exact hTl
  have hexa : exA la = some v := by simp [exA, hAmatch, hAv]
  have hext : exT lt = some w := by
    simp [exT, audioMatch_of_textMatch hTmatch, hTmatch, hTw]
  have hheadA := head_filterMap_of_filter audioMatch exA hnA _ la v hAl' hexa
  have hheadT := head_filterMap_of_filter textMatch exT hnT _ lt w hTl' hext
  have hscan : scanContent fs.content.toList = (some v, some w) := by
    unfold scanContent
    rw [foldl_scanStep, foldl_lastStep_eq exA, foldl_lastStep_eq exT, hheadA, hheadT]
  rw [update_locales_small app fs h0 h1 h2 h4]
  constructor
  · show (scanContent fs.content.toList).1.map (fun l => String.mk l) =
      some (String.mk v)
    rw [hscan]
    rfl
  · show (scanContent fs.content.toList).2.map (fun l => String.mk l) =
      some (String.mk w)
    rw [hscan]
    rfl

theorem C8_witness :
    (update_locales ⟨"Config.wtf", "enUS", none, none, none⟩
      ⟨true, true, 90,
        "SET audioLocale \"aa\"\nSET audioLocale \"frFR\"\nSET textLocale \"bb\"\nSET textLocale \"deDE\""⟩).audioLocale =
      some "frFR" ∧
    (update_locales ⟨"Config.wtf", "enUS", none, none, none⟩
      ⟨true, true, 90,
        "SET audioLocale \"aa\"\nSET audioLocale \"frFR\"\nSET textLocale \"bb\"\nSET textLocale \"deDE\""⟩).textLocale =
      some "deDE" :=
  C8_last_match_wins ⟨"Config.wtf", "enUS", none, none, none⟩
    ⟨true, true, 90,
      "SET audioLocale \"aa\"\nSET audioLocale \"frFR\"\nSET textLocale \"bb\"\nSET textLocale \"deDE\""⟩
    (by decide) (by decide) rfl (by decide)
    "SET audioLocale \"frFR\"".toList "SET textLocale \"deDE\"".toList
    "frFR".toList "deDE".toList
    (by decide) (by decide) (by decide) (by decide) (by decide) (by decide)

/-! ### Claim C9: a single active run sequence -/

theorem drain_messages_false (t : List String) : drain_messages false t = false := by
  induction t with
  | nil => rfl
  | cons m t ih =>
    unfold drain_messages at ih ⊢
    simp only [List.foldl_cons]
    rw [show drain_message false m = false from by unfold drain_message; split <;> rfl]
    exact ih

/-- Claim C9: the Run button is rejected with no state change and no worker
spawn while run_active is true, and draining messages turns run_active off
exactly when a FINISHED sentinel is drained. -/
theorem C9_single_active :
    (∀ v : Bool, try_start true v = (true, false)) ∧
    (∀ (msgs : List String) (ra : Bool),
      drain_messages ra msgs = true ↔ (ra = true ∧ "FINISHED" ∉ msgs)) := by
  constructor
  · intro v
    rfl
  · intro msgs
    induction msgs with
    | nil =>
      intro ra
      simp [drain_messages]
    | cons m t ih =>
      intro ra
      by_cases hm : m = "FINISHED"
      · subst hm
        constructor
        · intro h
          exfalso
          have hfold : drain_messages false t = true := by
            simpa [drain_messages, drain_message] using h
          rw [drain_messages_false] at hfold
          cases hfold
        · rintro ⟨_, hnot⟩
          exact absurd (List.mem_cons_self _ _) hnot
      · have hstep : drain_messages ra (m :: t) = drain_messages ra t := by
          unfold drain_messages
          simp only [List.foldl_cons]
          rw [show drain_message ra m = ra from by unfold drain_message; rw [if_neg hm]]
        rw [hstep, ih ra]
        simp [List.mem_cons, Ne.symm hm]

theorem C9_witness :
    try_start true true = (true, false) ∧
    drain_messages true ["Launched Battle.net", "FINISHED"] = false := by
  refine ⟨C9_single_active.1 true, ?_⟩
  have h := C9_single_active.2 ["Launched Battle.net", "FINISHED"] true
  refine Bool.eq_false_iff.mpr fun hc => ?_
  rcases h.mp hc with ⟨_, hn⟩
  exact hn (by decide)

/-! ### Claim C10: update is not byte-idempotent in general -/

/-- A config state used to exercise the update twice. -/
def c10App : AppState := ⟨"Config.wtf", "frFR", none, none, none⟩

/-- A file whose single line ends in a carriage return and has no newline
terminator: the first update writes it back verbatim with a trailing newline,
after which the second update strips the now newline-terminated carriage
return. -/
def c10File : FileState := ⟨true, true, 2, "a\r"⟩

theorem C10_counterexample :
    ((update_config_file_locales c10App c10File).toOption.bind fun r =>
        (update_config_file_locales r.1 r.2).toOption.map fun r2 => r2.2.content) ≠
      ((update_config_file_locales c10App c10File).toOption.map fun r =>
        r.2.content) := by
  decide

theorem update_locales_keeps (app : AppState) (fs : FileState) :
    (update_locales app fs).configWtfPath = app.configWtfPath ∧
    (update_locales app fs).preferredLocale = app.preferredLocale := by
  unfold update_locales
  split
  · exact ⟨rfl, rfl⟩
  split
  · exact ⟨rfl, rfl⟩
  split
  · exact ⟨rfl, rfl⟩
  split
  · exact ⟨rfl, rfl⟩
  · exact ⟨rfl, rfl⟩

theorem stripCR_of_getLast_ne {l : List Char} (h : l.getLast? ≠ some '\r') :
    stripCR l = l := by
  unfold stripCR
  rw [if_neg h]

theorem getLast?_audioLineFor (pref : List Char) :
    (audioLineFor pref).getLast? = some '"' :=
  List.getLast?_concat _

theorem getLast?_textLineFor (pref : List Char) :
    (textLineFor pref).getLast? = some '"' :=
  List.getLast?_concat _

theorem updateContent_idem {pref : List Char} (hn : '\n' ∉ pref)
    {c : List Char}
    (hr : ∀ x ∈ rustLines c, isKeyLine x = false → x.getLast? ≠ some '\r') :
    updateContent pref (updateContent pref c) = updateContent pref c := by
  have hfix : ∀ x ∈ updatedLines pref c, stripCR x = x := by
    intro x hx
    rcases mem_updatedLines hx with rfl | rfl | ⟨hmem, ha, ht⟩
    · exact stripCR_of_getLast_ne (by rw [getLast?_audioLineFor]; decide)
    · exact stripCR_of_getLast_ne (by rw [getLast?_textLineFor]; decide)
    · exact stripCR_of_getLast_ne (hr x hmem (by simp [isKeyLine, ha, ht]))
  have h1 : rustLines (updateContent pref c) = updatedLines pref c := by
    unfold updateContent
    rw [rustLines_joinNl (updatedLines_ne_nil pref c) (updatedLines_no_newline hn c)]
    calc (updatedLines pref c).map stripCR
        = (updatedLines pref c).map (fun x => x) := List.map_congr_left hfix
      _ = updatedLines pref c := List.map_id' _
  have hrepl : ∀ x ∈ updatedLines pref c, replaceLine pref x = x := by
    intro x hx
    rcases mem_updatedLines hx with rfl | rfl | ⟨_, ha, ht⟩
    · simp [replaceLine, audioMatch_audioLineFor]
    · simp [replaceLine, audioMatch_textLineFor, textMatch_textLineFor]
    · simp [replaceLine, ha, ht]
  have hanyA : (updatedLines pref c).any audioMatch = true :=
    List.any_eq_true.mpr ⟨audioLineFor pref, audioLineFor_mem_updatedLines pref c,
      audioMatch_audioLineFor pref⟩
  have hanyT : (updatedLines pref c).any textMatch = true :=
    List.any_eq_true.mpr ⟨textLineFor pref, textLineFor_mem_updatedLines pref c,
      textMatch_textLineFor pref⟩
  have h2 : updatedLines pref (updateContent pref c) = updatedLines pref c := by
    show (((rustLines (updateContent pref c)).map (replaceLine pref)) ++
        (if (rustLines (updateContent pref c)).any audioMatch then []
         else [audioLineFor pref])) ++
      (if (rustLines (updateContent pref c)).any textMatch then []
       else [textLineFor pref]) = updatedLines pref c
    rw [h1, hanyA, hanyT, List.map_congr_left hrepl, List.map_id']
    simp
  show joinNl (updatedLines pref (updateContent pref c)) ++ ['\n'] =
    updateContent pref c
  rw [h2]
  rfl

/-- Claim C10 (amended): the update is idempotent on the file contents
provided the preferred locale contains no newline and no non-key line of the
original contents still ends in a carriage return after line splitting. -/
theorem C10_amended_idem (app : AppState) (fs : FileState)
    (h1 : app.configWtfPath ≠ "") (h2 : fs.fexists = true) (h3 : fs.isFile = true)
    (h4 : fs.size < 8192)
    (h5 : (String.mk (updateContent app.preferredLocale.toList
      fs.content.toList)).utf8ByteSize < 8192)
    (hn : '\n' ∉ app.preferredLocale.toList)
    (hr : ∀ x ∈ rustLines fs.content.toList, isKeyLine x = false →
      x.getLast? ≠ some '\r') :
    ∃ app1 fs1 app2 fs2,
      update_config_file_locales app fs = .ok (app1, fs1) ∧
      update_config_file_locales app1 fs1 = .ok (app2, fs2) ∧
      fs2.content = fs1.content := by
  rw [update_ok app fs h1 h2 h3 h4]
  have hc : (update_locales { app with lastConfigPath := none }
      ⟨true, true,
        (String.mk (updateContent app.preferredLocale.toList
          fs.content.toList)).utf8ByteSize,
        String.mk (updateContent app.preferredLocale.toList
          fs.content.toList)⟩).configWtfPath = app.configWtfPath :=
    (update_locales_keeps _ _).1
  have hp : (update_locales { app with lastConfigPath := none }
      ⟨true, true,
        (String.mk (updateContent app.preferredLocale.toList
          fs.content.toList)).utf8ByteSize,
        String.mk (updateContent app.preferredLocale.toList
          fs.content.toList)⟩).preferredLocale = app.preferredLocale :=
    (update_locales_keeps _ _).2
  have hok2 := update_ok
    (update_locales { app with lastConfigPath := none }
      ⟨true, true,
        (String.mk (updateContent app.preferredLocale.toList
          fs.content.toList)).utf8ByteSize,
        String.mk (updateContent app.preferredLocale.toList
          fs.content.toList)⟩)
    ⟨true, true,
      (String.mk (updateContent app.preferredLocale.toList
        fs.content.toList)).utf8ByteSize,
      String.mk (updateContent app.preferredLocale.toList fs.content.toList)⟩
    (by rw [hc]; exact h1) rfl rfl h5
  refine ⟨_, _, _, _, rfl, hok2, ?_⟩
  show String.mk (updateContent
      (update_locales { app with lastConfigPath := none }
        ⟨true, true,
          (String.mk (updateContent app.preferredLocale.toList
            fs.content.toList)).utf8ByteSize,
          String.mk (updateContent app.preferredLocale.toList
            fs.content.toList)⟩).preferredLocale.toList
      (String.mk (updateContent app.preferredLocale.toList
        fs.content.toList)).toList) =
    String.mk (updateContent app.preferredLocale.toList fs.content.toList)
  rw [hp, toList_mk]
  exact congrArg String.mk (updateContent_idem hn hr)

theorem C10_amended_witness :
    ∃ app1 fs1 app2 fs2,
      update_config_file_locales ⟨"Config.wtf", "frFR", none, none, none⟩
        ⟨true, true, 4, "b"⟩ = .ok (app1, fs1) ∧
      update_config_file_locales app1 fs1 = .ok (app2, fs2) ∧
      fs2.content = fs1.content :=
  C10_amended_idem ⟨"Config.wtf", "frFR", none, none, none⟩ ⟨true, true, 4, "b"⟩
    (by decide) rfl rfl (by decide) (by decide) (by decide) (by decide)

end Entitan
